import Mathlib

/-!
Verification of the minify-css-map package core (bin/minify-css-map.mjs).

Strings are modelled as `List Char`.  The four `.replace` passes of
`minifyCss` are embedded as executable functions whose behaviour matches
JavaScript global regex replacement (left-to-right, non-overlapping
matches, scanning resumes after each replacement).
-/

/-- JavaScript whitespace class used by the regexes in `minifyCss`
(the class matched by a backslash-s in a JS regex):
tab, line feed, vertical tab, form feed, carriage return, space,
no-break space, ogham space mark, the en-quad..hair-space range,
line separator, paragraph separator, narrow no-break space,
medium mathematical space, ideographic space and the BOM. -/
def isWs (c : Char) : Bool :=
  c == ' ' || c == '\t' || c == '\n' || c == '\r' ||
  c.val == 11 || c.val == 12 ||
  c.val == 0xa0 || c.val == 0x1680 ||
  (0x2000 ≤ c.val && c.val ≤ 0x200a) ||
  c.val == 0x2028 || c.val == 0x2029 || c.val == 0x202f ||
  c.val == 0x205f || c.val == 0x3000 || c.val == 0xfeff

/-- The punctuation class of the third `minifyCss` regex. -/
def isPunct (c : Char) : Bool :=
  c == '{' || c == '}' || c == ':' || c == ';'

/-- Pattern matching at the head of a character list. -/
def isPre : List Char → List Char → Bool
  | [], _ => true
  | _ :: _, [] => false
  | p :: ps, c :: cs => p == c && isPre ps cs

/-- Substring test: the pattern occurs (contiguously) somewhere in the list. -/
def hasSub (pat : List Char) : List Char → Bool
  | [] => isPre pat []
  | c :: rest => isPre pat (c :: rest) || hasSub pat rest

/-- The list starts with a whitespace character. -/
def headIsWs : List Char → Bool
  | [] => false
  | c :: _ => isWs c

/-- The list starts with one of the four punctuation characters. -/
def headIsPunct : List Char → Bool
  | [] => false
  | c :: _ => isPunct c

/-- The list starts with a star character. -/
def headIsStar : List Char → Bool
  | [] => false
  | c :: _ => c == '*'

/-- Scanner for the first `.replace` of `minifyCss`:
removing every match of the comment regex (slash-star, a lazy run of
arbitrary characters, star-slash).  The `Option` argument is `none` in
normal scanning mode; once an opener has been read it holds the opener
and the characters consumed so far, in reverse, so that an unclosed
trailing comment — for which the regex has no match, since the lazy
middle still requires the terminator — is emitted verbatim at the end
of the input. -/
def rcAux : List Char → Option (List Char) → List Char
  | [], none => []
  | [], some saved => saved.reverse
  | '/' :: '*' :: rest, none => rcAux rest (some ['*', '/'])
  | '*' :: '/' :: rest, some _ => rcAux rest none
  | c :: rest, none => c :: rcAux rest none
  | c :: rest, some saved => rcAux rest (some (c :: saved))

/-- First pass of `minifyCss`: strip every closed block comment
(`.replace` of the comment regex by the empty string). -/
def removeComments (l : List Char) : List Char :=
  rcAux l none

/-- Second pass of `minifyCss`: `.replace` of every maximal run of
whitespace by a single space.  Processing from the right: a whitespace
character melts into a following whitespace run, otherwise it becomes
the single space emitted for its run. -/
def collapseWhitespace : List Char → List Char
  | [] => []
  | c :: rest =>
    let acc := collapseWhitespace rest
    if isWs c then
      if headIsWs acc then acc else ' ' :: acc
    else c :: acc

/-- Third pass of `minifyCss`: `.replace` of an optional whitespace run,
a punctuation character and an optional whitespace run by the bare
punctuation character.  Processing from the right: a whitespace
character is dropped when the text after its run begins with a
punctuation character, and a punctuation character swallows the
whitespace run that follows it.  This reproduces the left-to-right
global replacement, under which a whitespace run is deleted exactly
when its nearest non-whitespace neighbour on either side is one of
the four punctuation characters. -/
def removeSpacesAroundPunct : List Char → List Char
  | [] => []
  | c :: rest =>
    let acc := removeSpacesAroundPunct rest
    if isPunct c then c :: acc.dropWhile isWs
    else if isWs c then
      if headIsPunct acc then acc else c :: acc
    else c :: acc

/-- Fourth pass of `minifyCss`: `.replace` of every left-to-right
non-overlapping occurrence of semicolon-brace by the bare brace.
Since a semicolon can only start a match, every occurrence present in
the input is matched; scanning resumes after the written brace, so an
overlapping pattern (semicolon, semicolon, brace) leaves a fresh
semicolon-brace pair in the output. -/
def removeSemiBeforeBrace : List Char → List Char
  | [] => []
  | [c] => [c]
  | c :: d :: rest =>
    if c = ';' ∧ d = '}' then '}' :: removeSemiBeforeBrace rest
    else c :: removeSemiBeforeBrace (d :: rest)

/-- `minifyCss` from bin/minify-css-map.mjs: the four `.replace` passes
in source order. -/
def minifyCss (css : List Char) : List Char :=
  removeSemiBeforeBrace (removeSpacesAroundPunct (collapseWhitespace (removeComments css)))

/-- JavaScript `split` on the newline character: an ordered list of
segments, never empty; a trailing newline yields a trailing empty
segment, and the empty string yields one empty segment. -/
def splitOnNl : List Char → List (List Char)
  | [] => [[]]
  | c :: rest =>
    if c = '\n' then [] :: splitOnNl rest
    else
      match splitOnNl rest with
      | [] => [[c]]
      | line :: ls => (c :: line) :: ls

/-- Joining segments back with the newline character (the inverse of
`splitOnNl`, used to state that the map loses no information). -/
def joinNl : List (List Char) → List Char
  | [] => []
  | [l] => l
  | l :: ls => l ++ '\n' :: joinNl ls

/-- One element of the `mappings` array built by `generateSourceMap`:
the verbatim original line and the string of the 1-based line number
followed by a colon and the constant zero column. -/
structure LineEntry where
  original : List Char
  generated : String
deriving Repr, DecidableEq

/-- The object returned by `generateSourceMap`. -/
structure SourceMap where
  version : Nat
  file : String
  sources : List String
  mappings : List LineEntry
deriving Repr, DecidableEq

/-- `lines.map((line, index) => ({original: line, generated: ...}))`
with the 0-based index threaded explicitly. -/
def mkMapEntries (index : Nat) : List (List Char) → List LineEntry
  | [] => []
  | line :: rest =>
    { original := line, generated := toString (index + 1) ++ ":0" }
      :: mkMapEntries (index + 1) rest

/-- `generateSourceMap` from bin/minify-css-map.mjs (the map builder
the specification calls `buildMap`). -/
def generateSourceMap (cssContent : List Char) (cssFileName : String) : SourceMap :=
  { version := 3
    file := cssFileName
    sources := [cssFileName]
    mappings := mkMapEntries 0 (splitOnNl cssContent) }

/-- A node of the modelled file system: a regular file with its text
content, or a directory with its entries. -/
inductive FsEntry where
  | file (name : String) (content : List Char)
  | dir (name : String) (children : List FsEntry)
deriving Repr

/-- Observable actions of one run, in order.  Reading a directory
stands for `fs.readdirSync`, reading a file for `fs.readFileSync`,
the two writes for `fs.writeFileSync` (the map write records the map
object in place of its pretty-printed JSON text), and the two log
constructors for `console.log` and `console.error`. -/
inductive Event where
  | readDir (path : String)
  | readFile (path : String)
  | writeFile (path : String) (content : List Char)
  | writeMap (path : String) (map : SourceMap)
  | logOut (msg : String)
  | logErr (msg : String)
deriving Repr

/-- The event touches the file system (any read or write). -/
def isFileOp : Event → Bool
  | Event.readDir _ => true
  | Event.readFile _ => true
  | Event.writeFile _ _ => true
  | Event.writeMap _ _ => true
  | Event.logOut _ => false
  | Event.logErr _ => false

/-- `path.basename(p, ".css")` restricted to a bare file name: drop a
trailing `.css`. -/
def stripCssSuffix (name : String) : String :=
  if name.endsWith ".css" then name.dropRight 4 else name

/-- Trace of `minifyCssFile` for a file of the given directory, name
and content: read the source, write the minified text next to it,
write the source map built from the original content, log. -/
def minifyCssFile (dirPath name : String) (content : List Char) : List Event :=
  let base := stripCssSuffix name
  let minPath := dirPath ++ "/" ++ base ++ ".min.css"
  let mapPath := dirPath ++ "/" ++ base ++ ".css.map"
  [Event.readFile (dirPath ++ "/" ++ name),
   Event.writeFile minPath (minifyCss content),
   Event.writeMap mapPath (generateSourceMap content (base ++ ".css")),
   Event.logOut ("Minified " ++ dirPath ++ "/" ++ name ++ " -> " ++ minPath)]

/-- Trace of the `files.forEach` body of `processDirectory` over the
entries of a directory: recurse into subdirectories (each recursive
call starts with its `readdirSync`), minify files whose name ends in
`.css` but not in `.min.css`, skip everything else. -/
def processChildren (dirPath : String) : List FsEntry → List Event
  | [] => []
  | FsEntry.dir name cs :: rest =>
    (Event.readDir (dirPath ++ "/" ++ name) :: processChildren (dirPath ++ "/" ++ name) cs)
      ++ processChildren dirPath rest
  | FsEntry.file name content :: rest =>
    (if name.endsWith ".css" && !name.endsWith ".min.css"
     then minifyCssFile dirPath name content
     else []) ++ processChildren dirPath rest

/-- Trace of `processDirectory`: list the directory, then handle each
entry in order. -/
def processDirectory (dirPath : String) (children : List FsEntry) : List Event :=
  Event.readDir dirPath :: processChildren dirPath children

/-- Trace of `startMinification`.  `fs.existsSync(rootDirectory)` is
modelled by the `Option`: `none` when the target directory does not
exist, otherwise `some` of its entries. -/
def startMinification (targetPath : String) (target : Option (List FsEntry)) : List Event :=
  Event.logOut ("Starting CSS minification in: " ++ targetPath) ::
    match target with
    | none => [Event.logErr ("Target directory does not exist: " ++ targetPath)]
    | some children =>
      processDirectory targetPath children ++ [Event.logOut "CSS minification completed."]

/-- No adjacent pair of characters of the list satisfies `p`. -/
def adjFree (p : Char → Char → Bool) : List Char → Bool
  | a :: b :: rest => !p a b && adjFree p (b :: rest)
  | _ => true

/-- The head of the list, if any, forms no `p`-pair with `a`. -/
def headOk (p : Char → Char → Bool) (a : Char) : List Char → Bool
  | [] => true
  | b :: _ => !p a b

/-- Two adjacent whitespace characters. -/
def wsWsPair (a b : Char) : Bool := isWs a && isWs b

/-- A whitespace character adjacent to a punctuation character. -/
def wsPunctPair (a b : Char) : Bool :=
  (isWs a && isPunct b) || (isPunct a && isWs b)

/-- Two adjacent space characters. -/
def spaceSpacePair (a b : Char) : Bool := a == ' ' && b == ' '

/-- A space character adjacent to a punctuation character. -/
def spacePunctPair (a b : Char) : Bool :=
  (a == ' ' && isPunct b) || (isPunct a && b == ' ')

/-- Every whitespace character of the list is the plain space. -/
def allWsSpace (l : List Char) : Bool :=
  l.all (fun c => !isWs c || c == ' ')

/-! ## Basic lemmas about the helper predicates -/

theorem adjFree_nil (p : Char → Char → Bool) : adjFree p [] = true := rfl

theorem adjFree_cons (p : Char → Char → Bool) (a : Char) (l : List Char) :
    adjFree p (a :: l) = (headOk p a l && adjFree p l) := by
  cases l <;> simp [adjFree, headOk]

theorem adjFree_tail {p : Char → Char → Bool} {a : Char} {l : List Char}
    (h : adjFree p (a :: l) = true) : adjFree p l = true := by
  rw [adjFree_cons, Bool.and_eq_true] at h
  exact h.2

theorem headOk_of_adjFree_cons {p : Char → Char → Bool} {a : Char} {l : List Char}
    (h : adjFree p (a :: l) = true) : headOk p a l = true := by
  rw [adjFree_cons, Bool.and_eq_true] at h
  exact h.1

theorem adjFree_mono {p q : Char → Char → Bool}
    (hpq : ∀ a b, q a b = true → p a b = true) :
    ∀ l, adjFree p l = true → adjFree q l = true := by
  intro l
  induction l with
  | nil => intro _; rfl
  | cons a t ih =>
    intro h
    rw [adjFree_cons, Bool.and_eq_true] at h ⊢
    obtain ⟨h1, h2⟩ := h
    refine ⟨?_, ih h2⟩
    cases t with
    | nil => rfl
    | cons b t' =>
      cases hq : q a b
      · simp [headOk, hq]
      · simp only [headOk] at h1
        rw [hpq a b hq] at h1
        exact absurd h1 (by decide)

theorem adjFree_dropWhile {p : Char → Char → Bool} (q : Char → Bool) :
    ∀ l, adjFree p l = true → adjFree p (l.dropWhile q) = true := by
  intro l
  induction l with
  | nil => intro _; rfl
  | cons a t ih =>
    intro h
    rw [List.dropWhile_cons]
    split
    · exact ih (adjFree_tail h)
    · exact h

theorem headIsWs_dropWhile (l : List Char) :
    headIsWs (l.dropWhile isWs) = false := by
  induction l with
  | nil => rfl
  | cons a t ih =>
    rw [List.dropWhile_cons]
    split
    · exact ih
    · rename_i h
      simpa [headIsWs] using h

theorem punct_not_ws {c : Char} (h : isPunct c = true) : isWs c = false := by
  simp only [isPunct, Bool.or_eq_true, beq_iff_eq] at h
  rcases h with ((h | h) | h) | h <;> subst h <;> decide

theorem ws_not_punct {c : Char} (h : isWs c = true) : isPunct c = false := by
  cases hp : isPunct c
  · rfl
  · rw [punct_not_ws hp] at h
    exact absurd h (by simp)

theorem hasSub_tail {pat : List Char} {a : Char} {l : List Char}
    (h : hasSub pat (a :: l) = false) : hasSub pat l = false := by
  simp only [hasSub, Bool.or_eq_false_iff] at h
  exact h.2

theorem hasSub_cons_of {pat : List Char} {l : List Char} (a : Char)
    (h : hasSub pat l = true) : hasSub pat (a :: l) = true := by
  simp only [hasSub, Bool.or_eq_true]
  exact Or.inr h

theorem hasSub_pair_eq (x y : Char) :
    ∀ l, hasSub [x, y] l = !adjFree (fun a b => x == a && y == b) l := by
  intro l
  induction l with
  | nil => rfl
  | cons a t ih =>
    rw [hasSub, ih, adjFree_cons]
    cases t with
    | nil => simp [isPre, headOk, adjFree]
    | cons b t' => simp [isPre, headOk, Bool.not_and, Bool.and_or_distrib_left]

/-! ## Branch equations for the recursive passes -/

theorem cw_ws_ws {c : Char} {rest : List Char} (h1 : isWs c = true)
    (h2 : headIsWs (collapseWhitespace rest) = true) :
    collapseWhitespace (c :: rest) = collapseWhitespace rest := by
  simp [collapseWhitespace, h1, h2]

theorem cw_ws_nws {c : Char} {rest : List Char} (h1 : isWs c = true)
    (h2 : headIsWs (collapseWhitespace rest) = false) :
    collapseWhitespace (c :: rest) = ' ' :: collapseWhitespace rest := by
  simp [collapseWhitespace, h1, h2]

theorem cw_nws {c : Char} {rest : List Char} (h1 : isWs c = false) :
    collapseWhitespace (c :: rest) = c :: collapseWhitespace rest := by
  simp [collapseWhitespace, h1]

theorem rsp_punct {c : Char} {rest : List Char} (h1 : isPunct c = true) :
    removeSpacesAroundPunct (c :: rest)
      = c :: (removeSpacesAroundPunct rest).dropWhile isWs := by
  simp [removeSpacesAroundPunct, h1]

theorem rsp_ws_punct {c : Char} {rest : List Char} (h1 : isPunct c = false)
    (h2 : isWs c = true) (h3 : headIsPunct (removeSpacesAroundPunct rest) = true) :
    removeSpacesAroundPunct (c :: rest) = removeSpacesAroundPunct rest := by
  simp [removeSpacesAroundPunct, h1, h2, h3]

theorem rsp_ws_npunct {c : Char} {rest : List Char} (h1 : isPunct c = false)
    (h2 : isWs c = true) (h3 : headIsPunct (removeSpacesAroundPunct rest) = false) :
    removeSpacesAroundPunct (c :: rest) = c :: removeSpacesAroundPunct rest := by
  simp [removeSpacesAroundPunct, h1, h2, h3]

theorem rsp_other {c : Char} {rest : List Char} (h1 : isPunct c = false)
    (h2 : isWs c = false) :
    removeSpacesAroundPunct (c :: rest) = c :: removeSpacesAroundPunct rest := by
  simp [removeSpacesAroundPunct, h1, h2]

/-! ## Invariants of the whitespace passes -/

theorem allWsSpace_collapseWhitespace : ∀ l, allWsSpace (collapseWhitespace l) = true := by
  intro l
  induction l with
  | nil => rfl
  | cons c rest ih =>
    cases hw : isWs c
    · rw [cw_nws hw]
      simp only [allWsSpace, List.all_cons, Bool.and_eq_true] at ih ⊢
      exact ⟨by simp [hw], ih⟩
    · cases hh : headIsWs (collapseWhitespace rest)
      · rw [cw_ws_nws hw hh]
        simp only [allWsSpace, List.all_cons, Bool.and_eq_true] at ih ⊢
        exact ⟨by decide, ih⟩
      · rw [cw_ws_ws hw hh]
        exact ih

theorem adjFree_wsWs_collapseWhitespace : ∀ l, adjFree wsWsPair (collapseWhitespace l) = true := by
  intro l
  induction l with
  | nil => rfl
  | cons c rest ih =>
    cases hw : isWs c
    · rw [cw_nws hw, adjFree_cons, Bool.and_eq_true]
      refine ⟨?_, ih⟩
      cases collapseWhitespace rest with
      | nil => rfl
      | cons b t => simp [headOk, wsWsPair, hw]
    · cases hh : headIsWs (collapseWhitespace rest)
      · rw [cw_ws_nws hw hh, adjFree_cons, Bool.and_eq_true]
        refine ⟨?_, ih⟩
        cases hacc : collapseWhitespace rest with
        | nil => rfl
        | cons b t =>
          rw [hacc] at hh
          simp only [headIsWs] at hh
          simp [headOk, wsWsPair, hh]
      · rw [cw_ws_ws hw hh]
        exact ih

theorem headIsWs_removeSpacesAroundPunct {l : List Char}
    (h : headIsWs l = false) : headIsWs (removeSpacesAroundPunct l) = false := by
  cases l with
  | nil => rfl
  | cons c rest =>
    simp only [headIsWs] at h
    cases hp : isPunct c
    · rw [rsp_other hp h]
      simp [headIsWs, h]
    · rw [rsp_punct hp]
      simp [headIsWs, h]

theorem removeSpacesAroundPunct_sublist : ∀ l, List.Sublist (removeSpacesAroundPunct l) l := by
  intro l
  induction l with
  | nil => exact List.Sublist.refl []
  | cons c rest ih =>
    cases hp : isPunct c
    · cases hw : isWs c
      · rw [rsp_other hp hw]
        exact ih.cons₂ c
      · cases hh : headIsPunct (removeSpacesAroundPunct rest)
        · rw [rsp_ws_npunct hp hw hh]
          exact ih.cons₂ c
        · rw [rsp_ws_punct hp hw hh]
          exact ih.cons c
    · rw [rsp_punct hp]
      exact ((List.dropWhile_suffix isWs).sublist.trans ih).cons₂ c

theorem adjFree_wsWs_removeSpacesAroundPunct :
    ∀ l, adjFree wsWsPair l = true → adjFree wsWsPair (removeSpacesAroundPunct l) = true := by
  intro l
  induction l with
  | nil => intro _; rfl
  | cons c rest ih =>
    intro h
    have hrest : adjFree wsWsPair rest = true := adjFree_tail h
    cases hp : isPunct c
    · cases hw : isWs c
      · rw [rsp_other hp hw, adjFree_cons, Bool.and_eq_true]
        refine ⟨?_, ih hrest⟩
        cases removeSpacesAroundPunct rest with
        | nil => rfl
        | cons b t => simp [headOk, wsWsPair, hw]
      · cases hh : headIsPunct (removeSpacesAroundPunct rest)
        · rw [rsp_ws_npunct hp hw hh, adjFree_cons, Bool.and_eq_true]
          refine ⟨?_, ih hrest⟩
          -- the input character after c is not whitespace, hence
          -- neither is the head of the processed tail
          have hr : headIsWs rest = false := by
            cases rest with
            | nil => rfl
            | cons b t =>
              have hok := headOk_of_adjFree_cons h
              simp only [headOk, wsWsPair, hw, Bool.true_and, Bool.not_eq_true'] at hok
              simpa [headIsWs] using hok
          have hhead := headIsWs_removeSpacesAroundPunct hr
          cases hacc : removeSpacesAroundPunct rest with
          | nil => rfl
          | cons b t =>
            rw [hacc] at hhead
            simp only [headIsWs] at hhead
            simp [headOk, wsWsPair, hhead]
        · rw [rsp_ws_punct hp hw hh]
          exact ih hrest
    · rw [rsp_punct hp, adjFree_cons, Bool.and_eq_true]
      refine ⟨?_, adjFree_dropWhile isWs _ (ih hrest)⟩
      cases hD : (removeSpacesAroundPunct rest).dropWhile isWs with
      | nil => rfl
      | cons b t =>
        have hb := headIsWs_dropWhile (removeSpacesAroundPunct rest)
        rw [hD] at hb
        simp only [headIsWs] at hb
        simp [headOk, wsWsPair, punct_not_ws hp]

theorem adjFree_wsPunct_removeSpacesAroundPunct :
    ∀ l, adjFree wsPunctPair (removeSpacesAroundPunct l) = true := by
  intro l
  induction l with
  | nil => rfl
  | cons c rest ih =>
    cases hp : isPunct c
    · cases hw : isWs c
      · rw [rsp_other hp hw, adjFree_cons, Bool.and_eq_true]
        refine ⟨?_, ih⟩
        cases removeSpacesAroundPunct rest with
        | nil => rfl
        | cons b t => simp [headOk, wsPunctPair, hw, hp]
      · cases hh : headIsPunct (removeSpacesAroundPunct rest)
        · rw [rsp_ws_npunct hp hw hh, adjFree_cons, Bool.and_eq_true]
          refine ⟨?_, ih⟩
          cases hacc : removeSpacesAroundPunct rest with
          | nil => rfl
          | cons b t =>
            rw [hacc] at hh
            simp only [headIsPunct] at hh
            simp [headOk, wsPunctPair, hh, ws_not_punct hw]
        · rw [rsp_ws_punct hp hw hh]
          exact ih
    · rw [rsp_punct hp, adjFree_cons, Bool.and_eq_true]
      refine ⟨?_, adjFree_dropWhile isWs _ ih⟩
      cases hD : (removeSpacesAroundPunct rest).dropWhile isWs with
      | nil => rfl
      | cons b t =>
        have hb := headIsWs_dropWhile (removeSpacesAroundPunct rest)
        rw [hD] at hb
        simp only [headIsWs] at hb
        simp [headOk, wsPunctPair, punct_not_ws hp, hb]

/-! ## The semicolon pass and the composed invariants -/

theorem twoStepInduction {P : List Char → Prop} (h0 : P [])
    (h1 : ∀ c, P [c])
    (h2 : ∀ c d rest, P rest → P (d :: rest) → P (c :: d :: rest)) :
    ∀ l, P l := by
  have key : ∀ l, P l ∧ ∀ c, P (c :: l) := by
    intro l
    induction l with
    | nil => exact ⟨h0, h1⟩
    | cons d rest ih => exact ⟨ih.2 d, fun c => h2 c d rest ih.1 (ih.2 d)⟩
  exact fun l => (key l).1

theorem rsb_match {rest : List Char} :
    removeSemiBeforeBrace (';' :: '}' :: rest) = '}' :: removeSemiBeforeBrace rest := by
  simp [removeSemiBeforeBrace]

theorem rsb_nomatch {c d : Char} {rest : List Char} (h : ¬(c = ';' ∧ d = '}')) :
    removeSemiBeforeBrace (c :: d :: rest) = c :: removeSemiBeforeBrace (d :: rest) := by
  simp only [removeSemiBeforeBrace, if_neg h]

theorem removeSemiBeforeBrace_sublist :
    ∀ l, List.Sublist (removeSemiBeforeBrace l) l := by
  refine twoStepInduction (List.Sublist.refl []) (fun c => List.Sublist.refl [c]) ?_
  intro c d rest ihr ihdr
  by_cases hm : c = ';' ∧ d = '}'
  · obtain ⟨hc, hd⟩ := hm
    subst hc; subst hd
    rw [rsb_match]
    exact (ihr.cons₂ '}').cons ';'
  · rw [rsb_nomatch hm]
    exact ihdr.cons₂ c

theorem headOk_rsb {p : Char → Char → Bool} (hp : ∀ a, p a '}' = p a ';') :
    ∀ (a : Char) (l : List Char),
      headOk p a l = true → headOk p a (removeSemiBeforeBrace l) = true := by
  intro a l h
  match l with
  | [] => exact h
  | [c] => exact h
  | c :: d :: rest =>
    by_cases hm : c = ';' ∧ d = '}'
    · obtain ⟨hc, hd⟩ := hm
      subst hc; subst hd
      rw [rsb_match]
      simp only [headOk] at h ⊢
      rw [hp a]
      exact h
    · rw [rsb_nomatch hm]
      exact h

theorem adjFree_rsb {p : Char → Char → Bool} (hp : ∀ a, p a '}' = p a ';') :
    ∀ l, adjFree p l = true → adjFree p (removeSemiBeforeBrace l) = true := by
  refine twoStepInduction (fun _ => rfl) (fun c _ => rfl) ?_
  intro c d rest ihr ihdr h
  by_cases hm : c = ';' ∧ d = '}'
  · obtain ⟨hc, hd⟩ := hm
    subst hc; subst hd
    rw [rsb_match, adjFree_cons, Bool.and_eq_true]
    have htail : adjFree p ('}' :: rest) = true := adjFree_tail h
    refine ⟨headOk_rsb hp '}' rest (headOk_of_adjFree_cons htail), ihr (adjFree_tail htail)⟩
  · rw [rsb_nomatch hm, adjFree_cons, Bool.and_eq_true]
    exact ⟨headOk_rsb hp c (d :: rest) (headOk_of_adjFree_cons h), ihdr (adjFree_tail h)⟩

theorem wsWsPair_brace_semi : ∀ a, wsWsPair a '}' = wsWsPair a ';' := by
  intro a
  have h1 : isWs '}' = false := by decide
  have h2 : isWs ';' = false := by decide
  simp [wsWsPair, h1, h2]

theorem wsPunctPair_brace_semi : ∀ a, wsPunctPair a '}' = wsPunctPair a ';' := by
  intro a
  have h1 : isWs '}' = false := by decide
  have h2 : isWs ';' = false := by decide
  have h3 : isPunct '}' = true := by decide
  have h4 : isPunct ';' = true := by decide
  simp [wsPunctPair, h1, h2, h3, h4]

theorem allWsSpace_sublist {m l : List Char} (hs : List.Sublist m l)
    (h : allWsSpace l = true) : allWsSpace m = true := by
  simp only [allWsSpace, List.all_eq_true] at h ⊢
  exact fun c hc => h c (hs.subset hc)

/-- Every whitespace character surviving `minifyCss` is a plain space. -/
theorem allWsSpace_minifyCss (T : List Char) : allWsSpace (minifyCss T) = true :=
  allWsSpace_sublist (removeSemiBeforeBrace_sublist _)
    (allWsSpace_sublist (removeSpacesAroundPunct_sublist _)
      (allWsSpace_collapseWhitespace _))

/-- The output of `minifyCss` has no two adjacent whitespace characters. -/
theorem adjFree_wsWs_minifyCss (T : List Char) :
    adjFree wsWsPair (minifyCss T) = true :=
  adjFree_rsb wsWsPair_brace_semi _
    (adjFree_wsWs_removeSpacesAroundPunct _
      (adjFree_wsWs_collapseWhitespace _))

/-- The output of `minifyCss` has no whitespace character adjacent to a
punctuation character. -/
theorem adjFree_wsPunct_minifyCss (T : List Char) :
    adjFree wsPunctPair (minifyCss T) = true :=
  adjFree_rsb wsPunctPair_brace_semi _
    (adjFree_wsPunct_removeSpacesAroundPunct _)

/-! ## Fixed points of the passes -/

theorem dropWhile_of_headIsWs_false {l : List Char} (h : headIsWs l = false) :
    l.dropWhile isWs = l := by
  cases l with
  | nil => rfl
  | cons b t =>
    simp only [headIsWs] at h
    simp [List.dropWhile_cons, h]

theorem collapseWhitespace_fixed :
    ∀ l, allWsSpace l = true → adjFree wsWsPair l = true →
      collapseWhitespace l = l := by
  intro l
  induction l with
  | nil => intro _ _; rfl
  | cons c rest ih =>
    intro hall hadj
    have hall' : allWsSpace rest = true := by
      simp only [allWsSpace, List.all_cons, Bool.and_eq_true] at hall
      exact hall.2
    have hadj' : adjFree wsWsPair rest = true := adjFree_tail hadj
    cases hw : isWs c
    · rw [cw_nws hw, ih hall' hadj']
    · have hc : c = ' ' := by
        simp only [allWsSpace, List.all_cons, Bool.and_eq_true] at hall
        have := hall.1
        rw [hw] at this
        simpa using this
      have hr : headIsWs rest = false := by
        cases rest with
        | nil => rfl
        | cons b t =>
          have hok := headOk_of_adjFree_cons hadj
          simp only [headOk, wsWsPair, hw, Bool.true_and, Bool.not_eq_true'] at hok
          simpa [headIsWs] using hok
      have hr' : headIsWs (collapseWhitespace rest) = false := by
        rw [ih hall' hadj']
        exact hr
      rw [cw_ws_nws hw hr', ih hall' hadj', hc]

theorem removeSpacesAroundPunct_fixed :
    ∀ l, adjFree wsPunctPair l = true → removeSpacesAroundPunct l = l := by
  intro l
  induction l with
  | nil => intro _; rfl
  | cons c rest ih =>
    intro h
    have hrest : adjFree wsPunctPair rest = true := adjFree_tail h
    cases hp : isPunct c
    · cases hw : isWs c
      · rw [rsp_other hp hw, ih hrest]
      · have hr : headIsPunct rest = false := by
          cases rest with
          | nil => rfl
          | cons b t =>
            have hok := headOk_of_adjFree_cons h
            simp only [headOk, Bool.not_eq_true'] at hok
            simp only [headIsPunct]
            cases hb : isPunct b
            · rfl
            · exfalso
              simp [wsPunctPair, hw, hb] at hok
        have hr' : headIsPunct (removeSpacesAroundPunct rest) = false := by
          rw [ih hrest]
          exact hr
        rw [rsp_ws_npunct hp hw hr', ih hrest]
    · have hr : headIsWs rest = false := by
        cases rest with
        | nil => rfl
        | cons b t =>
          have hok := headOk_of_adjFree_cons h
          simp only [headOk, Bool.not_eq_true'] at hok
          simp only [headIsWs]
          cases hb : isWs b
          · rfl
          · exfalso
            simp [wsPunctPair, hp, hb] at hok
      rw [rsp_punct hp, ih hrest, dropWhile_of_headIsWs_false hr]

theorem removeSemiBeforeBrace_fixed :
    ∀ l, hasSub [';', '}'] l = false → removeSemiBeforeBrace l = l := by
  refine twoStepInduction (fun _ => rfl) (fun c _ => rfl) ?_
  intro c d rest ihr ihdr h
  by_cases hm : c = ';' ∧ d = '}'
  · obtain ⟨hc, hd⟩ := hm
    subst hc; subst hd
    exact absurd h (by simp [hasSub, isPre])
  · rw [rsb_nomatch hm, ihdr (hasSub_tail h)]

/-! ## Substring facts about the outputs -/

theorem hasSub_single_of_allWsSpace {c : Char} (hws : isWs c = true)
    (hc : (c == ' ') = false) :
    ∀ l, allWsSpace l = true → hasSub [c] l = false := by
  intro l
  induction l with
  | nil => intro _; rfl
  | cons a t ih =>
    intro h
    simp only [allWsSpace, List.all_cons, Bool.and_eq_true] at h
    obtain ⟨h1, h2⟩ := h
    simp only [hasSub, isPre, Bool.or_eq_false_iff, Bool.and_eq_false_iff]
    constructor
    · left
      cases hca : c == a
      · rfl
      · rw [beq_iff_eq] at hca
        subst hca
        rw [hws] at h1
        simp only [Bool.not_true, Bool.false_or] at h1
        rw [h1] at hc
        exact absurd hc (by simp)
    · exact ih (by simp [allWsSpace, List.all_eq_true] at h2 ⊢; exact h2)

/-! ## Equations and lemmas for the comment scanner -/

theorem rcAux_open {rest : List Char} :
    rcAux ('/' :: '*' :: rest) none = rcAux rest (some ['*', '/']) := rfl

theorem rcAux_close {rest saved : List Char} :
    rcAux ('*' :: '/' :: rest) (some saved) = rcAux rest none := rfl

theorem rcAux_none_single {a : Char} : rcAux [a] none = [a] := by
  rw [rcAux.eq_def]
  split <;> simp_all [rcAux]

theorem rcAux_none_step {a b : Char} {t : List Char} (h : ¬(a = '/' ∧ b = '*')) :
    rcAux (a :: b :: t) none = a :: rcAux (b :: t) none := by
  rw [rcAux.eq_def]
  split <;> simp_all

theorem rcAux_some_single {a : Char} {saved : List Char} :
    rcAux [a] (some saved) = (a :: saved).reverse := by
  rw [rcAux.eq_def]
  split <;> simp_all [rcAux]

theorem rcAux_some_step {a b : Char} {t saved : List Char} (h : ¬(a = '*' ∧ b = '/')) :
    rcAux (a :: b :: t) (some saved) = rcAux (b :: t) (some (a :: saved)) := by
  rw [rcAux.eq_def]
  split <;> simp_all

theorem not_star_slash_of_hasSub_false {c d : Char} {rest : List Char}
    (h : hasSub ['*', '/'] (c :: d :: rest) = false) : ¬(c = '*' ∧ d = '/') := by
  rintro ⟨hc, hd⟩
  subst hc; subst hd
  simp [hasSub, isPre] at h

theorem rcAux_unclosed :
    ∀ l, hasSub ['*', '/'] l = false →
      ∀ saved, rcAux l (some saved) = saved.reverse ++ l := by
  refine twoStepInduction ?_ ?_ ?_
  · intro _ saved
    simp [rcAux]
  · intro c _ saved
    rw [rcAux_some_single]
    simp
  · intro c d rest _ ihdr h saved
    rw [rcAux_some_step (not_star_slash_of_hasSub_false h)]
    rw [ihdr (hasSub_tail h)]
    simp

theorem rcAux_none_id :
    ∀ l, hasSub ['*', '/'] l = false → rcAux l none = l := by
  refine twoStepInduction ?_ ?_ ?_
  · intro _; rfl
  · intro c _
    exact rcAux_none_single
  · intro c d rest ihr ihdr h
    by_cases hm : c = '/' ∧ d = '*'
    · obtain ⟨hc, hd⟩ := hm
      subst hc; subst hd
      rw [rcAux_open, rcAux_unclosed rest (hasSub_tail (hasSub_tail h))]
      rfl
    · rw [rcAux_none_step hm, ihdr (hasSub_tail h)]

theorem rcAux_to_close :
    ∀ c, hasSub ['*', '/'] c = false →
      ∀ v saved, rcAux (c ++ '*' :: '/' :: v) (some saved) = rcAux v none := by
  intro c
  induction c with
  | nil => intro _ v saved; exact rcAux_close
  | cons a c2 ih =>
    intro h v saved
    cases c2 with
    | nil =>
      have hstep : ¬(a = '*' ∧ '*' = '/') := by rintro ⟨_, h2⟩; exact absurd h2 (by decide)
      calc rcAux (a :: '*' :: '/' :: v) (some saved)
          = rcAux ('*' :: '/' :: v) (some (a :: saved)) := rcAux_some_step hstep
        _ = rcAux v none := rcAux_close
    | cons b c3 =>
      have hstep : ¬(a = '*' ∧ b = '/') := not_star_slash_of_hasSub_false h
      calc rcAux (a :: (b :: c3) ++ '*' :: '/' :: v) (some saved)
          = rcAux ((b :: c3) ++ '*' :: '/' :: v) (some (a :: saved)) := rcAux_some_step hstep
        _ = rcAux v none := ih (hasSub_tail h) v (a :: saved)

theorem rcAux_append_clean :
    ∀ u, hasSub ['/', '*'] u = false →
      ∀ w, headIsStar w = false → rcAux (u ++ w) none = u ++ rcAux w none := by
  intro u
  induction u with
  | nil => intro _ w _; rfl
  | cons a u2 ih =>
    intro h w hw
    cases u2 with
    | nil =>
      cases w with
      | nil => simp [rcAux_none_single, rcAux]
      | cons b t =>
        simp only [headIsStar] at hw
        have hstep : ¬(a = '/' ∧ b = '*') := by
          rintro ⟨_, hb⟩
          subst hb
          simp at hw
        simpa using rcAux_none_step hstep
    | cons b u3 =>
      have hstep : ¬(a = '/' ∧ b = '*') := by
        rintro ⟨hc, hd⟩
        subst hc; subst hd
        simp [hasSub, isPre] at h
      calc rcAux (a :: (b :: u3) ++ w) none
          = a :: rcAux ((b :: u3) ++ w) none := rcAux_none_step hstep
        _ = a :: ((b :: u3) ++ rcAux w none) := by rw [ih (hasSub_tail h) w hw]

/-! ## The semicolon pass creates a pair only from a triple -/

theorem rsb_creates :
    ∀ l, hasSub [';', '}'] (removeSemiBeforeBrace l) = true →
      hasSub [';', ';', '}'] l = true := by
  refine twoStepInduction ?_ ?_ ?_
  · intro h
    simp [removeSemiBeforeBrace, hasSub, isPre] at h
  · intro c h
    simp [removeSemiBeforeBrace, hasSub, isPre] at h
  · intro c d rest ihr ihdr h
    by_cases hm : c = ';' ∧ d = '}'
    · obtain ⟨hc, hd⟩ := hm
      subst hc; subst hd
      rw [rsb_match] at h
      have h' : hasSub [';', '}'] (removeSemiBeforeBrace rest) = true := by
        simp only [hasSub, isPre] at h
        simpa using h
      exact hasSub_cons_of ';' (hasSub_cons_of '}' (ihr h'))
    · rw [rsb_nomatch hm] at h
      simp only [hasSub, Bool.or_eq_true] at h
      rcases h with hL | hR
      · -- the pattern matches at the head of the output:
        -- c is the semicolon and the processed tail starts with a brace
        simp only [isPre, Bool.and_eq_true, beq_iff_eq] at hL
        obtain ⟨hc, hL2⟩ := hL
        subst hc
        have hd : d ≠ '}' := fun hd => hm ⟨rfl, hd⟩
        cases rest with
        | nil =>
          simp only [removeSemiBeforeBrace, isPre, Bool.and_eq_true, beq_iff_eq] at hL2
          exact absurd hL2.1.symm hd
        | cons e r2 =>
          by_cases hm2 : d = ';' ∧ e = '}'
          · obtain ⟨hd2, he⟩ := hm2
            subst hd2; subst he
            simp [hasSub, isPre]
          · rw [rsb_nomatch hm2] at hL2
            simp only [isPre, Bool.and_eq_true, beq_iff_eq] at hL2
            exact absurd hL2.1.symm hd
      · exact hasSub_cons_of c (ihdr hR)

/-! ## Lemmas about the map builder -/

theorem splitOnNl_ne_nil : ∀ l, splitOnNl l ≠ [] := by
  intro l
  cases l with
  | nil => simp [splitOnNl]
  | cons c rest =>
    simp only [splitOnNl]
    split
    · simp
    · split <;> simp

theorem splitOnNl_nl {rest : List Char} :
    splitOnNl ('\n' :: rest) = [] :: splitOnNl rest := by
  simp [splitOnNl]

theorem splitOnNl_cons {c : Char} {rest : List Char} (h : ¬c = '\n')
    {line : List Char} {ls : List (List Char)} (he : splitOnNl rest = line :: ls) :
    splitOnNl (c :: rest) = (c :: line) :: ls := by
  simp [splitOnNl, h, he]

theorem splitOnNl_length : ∀ l, (splitOnNl l).length = l.count '\n' + 1 := by
  intro l
  induction l with
  | nil => rfl
  | cons c rest ih =>
    by_cases hc : c = '\n'
    · subst hc
      rw [splitOnNl_nl]
      simp only [List.length_cons, List.count_cons, ih]
      simp
    · cases he : splitOnNl rest with
      | nil => exact absurd he (splitOnNl_ne_nil rest)
      | cons line ls =>
        rw [splitOnNl_cons hc he]
        rw [he] at ih
        simp only [List.length_cons] at ih ⊢
        simp only [List.count_cons, beq_iff_eq, hc, if_false]
        omega

theorem joinNl_cons₂ {a b : List Char} {r : List (List Char)} :
    joinNl (a :: b :: r) = a ++ '\n' :: joinNl (b :: r) := rfl

theorem joinNl_splitOnNl : ∀ l, joinNl (splitOnNl l) = l := by
  intro l
  induction l with
  | nil => rfl
  | cons c rest ih =>
    by_cases hc : c = '\n'
    · subst hc
      rw [splitOnNl_nl]
      cases he : splitOnNl rest with
      | nil => exact absurd he (splitOnNl_ne_nil rest)
      | cons line ls =>
        rw [he] at ih
        rw [joinNl_cons₂, ih]
        rfl
    · cases he : splitOnNl rest with
      | nil => exact absurd he (splitOnNl_ne_nil rest)
      | cons line ls =>
        rw [splitOnNl_cons hc he]
        rw [he] at ih
        cases ls with
        | nil =>
          simp only [joinNl] at ih ⊢
          rw [ih]
        | cons l2 ls2 =>
          rw [joinNl_cons₂] at ih ⊢
          rw [List.cons_append, ih]

theorem mkMapEntries_length : ∀ (n : Nat) (ls : List (List Char)),
    (mkMapEntries n ls).length = ls.length := by
  intro n ls
  induction ls generalizing n with
  | nil => rfl
  | cons line rest ih => simp [mkMapEntries, ih]

theorem mkMapEntries_map_original : ∀ (n : Nat) (ls : List (List Char)),
    (mkMapEntries n ls).map LineEntry.original = ls := by
  intro n ls
  induction ls generalizing n with
  | nil => rfl
  | cons line rest ih => simp [mkMapEntries, ih]

theorem mkMapEntries_get_generated :
    ∀ (ls : List (List Char)) (n i : Nat) (h : i < (mkMapEntries n ls).length),
      ((mkMapEntries n ls).get ⟨i, h⟩).generated = toString (n + i + 1) ++ ":0" := by
  intro ls
  induction ls with
  | nil =>
    intro n i h
    simp [mkMapEntries] at h
  | cons line rest ih =>
    intro n i h
    cases i with
    | zero => simp [mkMapEntries]
    | succ j =>
      have h' : j < (mkMapEntries (n + 1) rest).length := by
        simp only [mkMapEntries, List.length_cons] at h
        omega
      have := ih (n + 1) j h'
      simp only [mkMapEntries, List.get_cons_succ]
      rw [this]
      congr 2
      omega

/-! ## Claim theorems -/

/-- C1, counterexample: `minifyCss` is not idempotent.  On the input
consisting of two semicolons and a closing brace the first pass
over the pairs leaves a fresh semicolon-brace pair, which a second
run removes, so minifying twice differs from minifying once. -/
theorem minifyCss_not_idempotent_cex :
    minifyCss [';', ';', '}'] = [';', '}'] ∧
    minifyCss (minifyCss [';', ';', '}']) = ['}'] ∧
    (minifyCss (minifyCss [';', ';', '}']) == minifyCss [';', ';', '}']) = false :=
  ⟨by decide, by decide, by decide⟩

/-- C1, amended: `minifyCss` is idempotent on every input whose minified
output contains no semicolon-brace pair and is left unchanged by the
comment-removal pass (in particular, contains no closed comment). -/
theorem minifyCss_idempotent_amended (T : List Char)
    (h1 : hasSub [';', '}'] (minifyCss T) = false)
    (h2 : removeComments (minifyCss T) = minifyCss T) :
    minifyCss (minifyCss T) = minifyCss T := by
  show removeSemiBeforeBrace (removeSpacesAroundPunct (collapseWhitespace
    (removeComments (minifyCss T)))) = minifyCss T
  rw [h2,
    collapseWhitespace_fixed (minifyCss T) (allWsSpace_minifyCss T) (adjFree_wsWs_minifyCss T),
    removeSpacesAroundPunct_fixed (minifyCss T) (adjFree_wsPunct_minifyCss T),
    removeSemiBeforeBrace_fixed (minifyCss T) h1]

/-- C1, witness for the amended theorem at a concrete stylesheet. -/
theorem minifyCss_idempotent_witness :
    hasSub [';', '}'] (minifyCss ['a', '{', 'b', ':', 'c', '}']) = false ∧
    removeComments (minifyCss ['a', '{', 'b', ':', 'c', '}'])
      = minifyCss ['a', '{', 'b', ':', 'c', '}'] ∧
    minifyCss (minifyCss ['a', '{', 'b', ':', 'c', '}'])
      = minifyCss ['a', '{', 'b', ':', 'c', '}'] :=
  ⟨by decide, by decide, minifyCss_idempotent_amended _ (by decide) (by decide)⟩

/-- C2, counterexample: the output of `minifyCss` can contain the
semicolon-brace substring, on the input of two semicolons and a brace. -/
theorem minifyCss_semibrace_cex :
    hasSub [';', '}'] (minifyCss [';', ';', '}']) = true := by decide

/-- C2, amended: the output of `minifyCss` contains no semicolon-brace
substring provided the text reaching the final pass (after comment
removal, whitespace collapsing and punctuation-space stripping)
contains no semicolon-semicolon-brace substring. -/
theorem minifyCss_no_semibrace_amended (T : List Char)
    (h : hasSub [';', ';', '}']
      (removeSpacesAroundPunct (collapseWhitespace (removeComments T))) = false) :
    hasSub [';', '}'] (minifyCss T) = false := by
  cases hq : hasSub [';', '}'] (minifyCss T)
  · rfl
  · have hq' : hasSub [';', '}'] (removeSemiBeforeBrace
        (removeSpacesAroundPunct (collapseWhitespace (removeComments T)))) = true := hq
    have := rsb_creates _ hq'
    rw [h] at this
    exact absurd this (by simp)

/-- C2, witness for the amended theorem at a concrete stylesheet. -/
theorem minifyCss_no_semibrace_witness :
    hasSub [';', ';', '}']
      (removeSpacesAroundPunct (collapseWhitespace (removeComments ['a', '{', 'b', '}']))) = false ∧
    hasSub [';', '}'] (minifyCss ['a', '{', 'b', '}']) = false :=
  ⟨by decide, minifyCss_no_semibrace_amended _ (by decide)⟩

/-- C3, counterexample: an input containing a comment opener with no
subsequent terminator passes through `minifyCss` unchanged — the
unclosed comment is kept, not removed, because the comment regex only
matches when the terminator is present. -/
theorem unclosed_comment_kept_cex :
    hasSub ['/', '*'] ['/', '*', 'x'] = true ∧
    hasSub ['*', '/'] ['/', '*', 'x'] = false ∧
    minifyCss ['/', '*', 'x'] = ['/', '*', 'x'] ∧
    hasSub ['/', '*', 'x'] (minifyCss ['/', '*', 'x']) = true :=
  ⟨by decide, by decide, by decide, by decide⟩

/-- C3, amended: when the input contains no comment terminator at all,
the comment-removal pass leaves it unchanged; in particular an
unclosed trailing comment is retained rather than stripped to the end
of input. -/
theorem removeComments_unclosed_amended (T : List Char)
    (h : hasSub ['*', '/'] T = false) : removeComments T = T :=
  rcAux_none_id T h

/-- C3, witness for the amended theorem at a concrete input. -/
theorem removeComments_unclosed_witness :
    hasSub ['*', '/'] ['/', '*', 'x'] = false ∧
    removeComments ['/', '*', 'x'] = ['/', '*', 'x'] :=
  ⟨by decide, removeComments_unclosed_amended _ (by decide)⟩

/-- C4, counterexample: for the input slash-star-a-star-slash-a, which
contains the balanced comment with inner content `a`, the output still
contains that inner content (the second `a` of the input), so the
literal inner content of a closed comment is not always absent from
the output. -/
theorem comment_content_cex :
    minifyCss ['/', '*', 'a', '*', '/', 'a'] = ['a'] ∧
    hasSub ['a'] (minifyCss ['/', '*', 'a', '*', '/', 'a']) = true :=
  ⟨by decide, by decide⟩

/-- C4, amended: the comment occurrence itself is removed in full: when
the text before the first comment opener contains no opener and the
comment body contains no terminator, the comment-removal pass deletes
the opener, the body and the terminator, keeping only the surrounding
text (with the remainder processed recursively). -/
theorem removeComments_removes_closed (u c v : List Char)
    (hu : hasSub ['/', '*'] u = false) (hc : hasSub ['*', '/'] c = false) :
    removeComments (u ++ ['/', '*'] ++ c ++ ['*', '/'] ++ v) = u ++ removeComments v := by
  show rcAux (u ++ ['/', '*'] ++ c ++ ['*', '/'] ++ v) none = u ++ rcAux v none
  have hshape : u ++ ['/', '*'] ++ c ++ ['*', '/'] ++ v
      = u ++ ('/' :: '*' :: (c ++ '*' :: '/' :: v)) := by simp
  rw [hshape, rcAux_append_clean u hu _ (by rfl), rcAux_open, rcAux_to_close c hc v _]

/-- C4, witness for the amended theorem at a concrete input. -/
theorem removeComments_removes_closed_witness :
    hasSub ['/', '*'] ['x'] = false ∧
    hasSub ['*', '/'] ['a'] = false ∧
    removeComments (['x'] ++ ['/', '*'] ++ ['a'] ++ ['*', '/'] ++ ['y'])
      = ['x'] ++ removeComments ['y'] :=
  ⟨by decide, by decide, removeComments_removes_closed ['x'] ['a'] ['y'] (by decide) (by decide)⟩

/-- C5: for every input, the output of `minifyCss` never contains two
consecutive space characters, and never contains a newline or a tab
character. -/
theorem minifyCss_whitespace_normalized (T : List Char) :
    hasSub [' ', ' '] (minifyCss T) = false ∧
    hasSub ['\n'] (minifyCss T) = false ∧
    hasSub ['\t'] (minifyCss T) = false := by
  refine ⟨?_, ?_, ?_⟩
  · have hmono : ∀ a b : Char, (' ' == a && ' ' == b) = true → wsWsPair a b = true := by
      intro a b hab
      simp only [Bool.and_eq_true, beq_iff_eq] at hab
      obtain ⟨ha, hb⟩ := hab
      rw [← ha, ← hb]
      decide
    have h2 := adjFree_mono hmono (minifyCss T) (adjFree_wsWs_minifyCss T)
    rw [hasSub_pair_eq, h2]
    rfl
  · exact hasSub_single_of_allWsSpace (by decide) (by decide) _ (allWsSpace_minifyCss T)
  · exact hasSub_single_of_allWsSpace (by decide) (by decide) _ (allWsSpace_minifyCss T)

/-- C6: for every input, the output of `minifyCss` never has a space
character immediately adjacent (on either side) to any of the four
punctuation characters: no adjacent pair of the output is a space
followed by punctuation or punctuation followed by a space. -/
theorem minifyCss_no_space_around_punct (T : List Char) :
    adjFree spacePunctPair (minifyCss T) = true := by
  have hmono : ∀ a b : Char, spacePunctPair a b = true → wsPunctPair a b = true := by
    intro a b hab
    simp only [spacePunctPair, Bool.or_eq_true, Bool.and_eq_true, beq_iff_eq] at hab
    rcases hab with ⟨ha, hb⟩ | ⟨ha, hb⟩
    · subst ha
      simp [wsPunctPair, hb, show isWs ' ' = true from by decide]
    · subst hb
      simp [wsPunctPair, ha, show isWs ' ' = true from by decide]
  exact adjFree_mono hmono (minifyCss T) (adjFree_wsPunct_minifyCss T)

/-- C7: the map built by `generateSourceMap` has exactly one mapping
entry per newline-delimited segment of the original text: its length
is the newline count plus one (so a trailing newline contributes a
trailing empty segment), and on the empty input it is exactly one. -/
theorem generateSourceMap_mappings_length (T : List Char) (name : String) :
    (generateSourceMap T name).mappings.length = T.count '\n' + 1 ∧
    (generateSourceMap [] name).mappings.length = 1 := by
  constructor
  · show (mkMapEntries 0 (splitOnNl T)).length = T.count '\n' + 1
    rw [mkMapEntries_length, splitOnNl_length]
  · rfl

/-- C8: for every original text and name, the map has version 3, file
equal to the name, sources equal to the one-element list of the name,
and the i-th mapping entry's generated field is the decimal of i plus
one followed by colon-zero (the column is always zero). -/
theorem generateSourceMap_fields (T : List Char) (name : String) :
    (generateSourceMap T name).version = 3 ∧
    (generateSourceMap T name).file = name ∧
    (generateSourceMap T name).sources = [name] ∧
    ∀ i (h : i < (generateSourceMap T name).mappings.length),
      ((generateSourceMap T name).mappings.get ⟨i, h⟩).generated
        = toString (i + 1) ++ ":0" := by
  refine ⟨rfl, rfl, rfl, ?_⟩
  intro i h
  have := mkMapEntries_get_generated (splitOnNl T) 0 i h
  simpa using this

/-- C8, witness at a two-line text: the second entry is generated
line 2, column 0. -/
theorem generateSourceMap_fields_witness :
    1 < (generateSourceMap ['a', '\n', 'b'] "styles.css").mappings.length ∧
    ((generateSourceMap ['a', '\n', 'b'] "styles.css").mappings.get
      ⟨1, by decide⟩).generated = "2:0" :=
  ⟨by decide,
    ((generateSourceMap_fields ['a', '\n', 'b'] "styles.css").2.2.2 1 (by decide)).trans
      (by decide)⟩

/-- C9: when the target directory does not exist, the run consists of
the startup log line and a diagnostic on standard error, and performs
no file-system operation at all: nothing is read, minified or
written. -/
theorem startMinification_missing_dir (p : String) :
    startMinification p none
      = [Event.logOut ("Starting CSS minification in: " ++ p),
         Event.logErr ("Target directory does not exist: " ++ p)] ∧
    (startMinification p none).all (fun e => !isFileOp e) = true :=
  ⟨rfl, rfl⟩

/-- C10: joining the original fields of the mapping entries with the
newline character reconstructs the original text exactly: the map
loses no information about the original. -/
theorem generateSourceMap_reconstruct (T : List Char) (name : String) :
    joinNl ((generateSourceMap T name).mappings.map LineEntry.original) = T := by
  show joinNl ((mkMapEntries 0 (splitOnNl T)).map LineEntry.original) = T
  rw [mkMapEntries_map_original, joinNl_splitOnNl]

/-! ## Concrete scenario checks (from the test suite of the package) -/

/-- Scenario check: the basic stylesheet of the test suite minifies to
the compact one-line form. -/
theorem minifyCss_scenario_basic :
    minifyCss
      ['b', 'o', 'd', 'y', ' ', '{', '\n', ' ', ' ', 'f', 'o', 'n', 't', '-', 's', 'i', 'z', 'e', ':', ' ', '1', '6', 'p', 'x', ';', '\n', ' ', ' ', 'b', 'a', 'c', 'k', 'g', 'r', 'o', 'u', 'n', 'd', '-', 'c', 'o', 'l', 'o', 'r', ':', ' ', '#', 'f', 'f', 'f', ';', '\n', '}']
      = ['b', 'o', 'd', 'y', '{', 'f', 'o', 'n', 't', '-', 's', 'i', 'z', 'e', ':', '1', '6', 'p', 'x', ';', 'b', 'a', 'c', 'k', 'g', 'r', 'o', 'u', 'n', 'd', '-', 'c', 'o', 'l', 'o', 'r', ':', '#', 'f', 'f', 'f', '}'] := by decide

/-- Scenario check: a custom-property rule keeps its variable name. -/
theorem minifyCss_scenario_variables :
    minifyCss
      [':', 'r', 'o', 'o', 't', ' ', '{', '\n', ' ', ' ', '-', '-', 'm', 'a', 'i', 'n', '-', 'b', 'g', '-', 'c', 'o', 'l', 'o', 'r', ':', ' ', '#', 'f', 'f', 'f', ';', '\n', '}']
      = [':', 'r', 'o', 'o', 't', '{', '-', '-', 'm', 'a', 'i', 'n', '-', 'b', 'g', '-', 'c', 'o', 'l', 'o', 'r', ':', '#', 'f', 'f', 'f', '}'] := by decide

/-- Scenario check: a closed comment is stripped; the whitespace run it
leaves behind collapses to a single leading space before the rule. -/
theorem minifyCss_scenario_comment :
    minifyCss
      ['/', '*', ' ', 'c', ' ', '*', '/', '\n', 'b', 'o', 'd', 'y', ' ', '{', ' ', 'c', 'o', 'l', 'o', 'r', ':', ' ', 'r', 'e', 'd', ';', ' ', '}']
      = [' ', 'b', 'o', 'd', 'y', '{', 'c', 'o', 'l', 'o', 'r', ':', 'r', 'e', 'd', '}'] := by decide

/-- Scenario check: empty input yields empty output. -/
theorem minifyCss_scenario_empty : minifyCss [] = [] := by decide
